import Mathlib

/-!
Verification of the day-05 range-remapping pipeline (`src/day-05/src/main.rs`).

The Rust code is shallowly embedded: `Range<i32>` becomes `IRange` over `ℤ`
(half-open interval `[start, stop)`), `LocationRange` keeps its fields, and
the stage / almanach functions are translated function by function.  The
`from`/`to` label fields of the Rust `Location` struct are omitted: they are
used only by the text parser, which is outside the embedded core, and they do
not influence any mapping function.  The `HashSet<LocationRange>` of a stage
is embedded as a `List LocationRange` recording one iteration order; order
independence under disjointness is itself one of the verified statements.
-/

/-- Integer interval `[start, stop)`, mirroring Rust `Range<i32>` (fields
`start` and `end`; `end` is a Lean keyword, so the embedding calls it
`stop`). -/
structure IRange where
  start : ℤ
  stop : ℤ
deriving DecidableEq

/-- Rust `Range::contains`: `start <= x < stop`. -/
def IRange.contains (r : IRange) (x : ℤ) : Prop :=
  r.start ≤ x ∧ x < r.stop

instance (r : IRange) (x : ℤ) : Decidable (r.contains x) :=
  inferInstanceAs (Decidable (r.start ≤ x ∧ x < r.stop))

/-- Number of integers covered by a list of intervals, counted per interval
(a `Range<i32>` with `start >= end` is empty, hence the `max _ 0`). -/
def totalLen (l : List IRange) : ℤ :=
  (l.map fun r => max (r.stop - r.start) 0).sum

/-- Two intervals are disjoint as sets of integers. -/
def rangesDisjoint (a b : IRange) : Prop :=
  ∀ x : ℤ, ¬ (a.contains x ∧ b.contains x)

/-- Rust struct `LocationRange { dst_start, src_start, length }` (fields kept;
`i32` embedded as `ℤ`). -/
structure LocationRange where
  dst_start : ℤ
  src_start : ℤ
  length : ℤ
deriving DecidableEq

/-- `LocationRange::new`: plain construction, no validation. -/
def LocationRange.new (dst_start src_start length : ℤ) : LocationRange :=
  ⟨dst_start, src_start, length⟩

/-- `LocationRange::src_range`: `src_start..(src_start + length)`. -/
def LocationRange.src_range (r : LocationRange) : IRange :=
  ⟨r.src_start, r.src_start + r.length⟩

/-- `LocationRange::dst_range`: `dst_start..(dst_start + length)`. -/
def LocationRange.dst_range (r : LocationRange) : IRange :=
  ⟨r.dst_start, r.dst_start + r.length⟩

/-- `LocationRange::map`: `None` outside `src_range`, else the `offset`-th
element of `dst_range`, i.e. `dst_start + (src - src_start)`. -/
def LocationRange.map (r : LocationRange) (src : ℤ) : Option ℤ :=
  if r.src_range.contains src then some (r.dst_start + (src - r.src_start)) else none

/-- `LocationRange::reverse_map`: `None` outside `dst_range`, else
`src_start + (dst - dst_start)`. -/
def LocationRange.reverse_map (r : LocationRange) (dst : ℤ) : Option ℤ :=
  if r.dst_range.contains dst then some (r.src_start + (dst - r.dst_start)) else none

/-- `LocationRange::split_range`, translated branch by branch, including the
comparison `in_loc_range.start < in_loc_range.end` of the first branch exactly
as it is written in the source. -/
def LocationRange.split_range (r : LocationRange) (q : IRange) :
    List IRange × Option IRange :=
  let locSrc := r.src_range
  let left := max q.start locSrc.start
  let right := min q.stop locSrc.stop
  let inLoc : IRange := ⟨left, right⟩
  let pair : List IRange × Option IRange :=
    if inLoc.start < inLoc.stop then ([q], none)
    else if inLoc = q then ([], some q)
    else if right = locSrc.stop then ([⟨q.start, inLoc.start⟩], some inLoc)
    else if left = locSrc.start then ([⟨inLoc.stop, q.stop⟩], some inLoc)
    else ([⟨q.start, inLoc.start⟩, ⟨inLoc.stop, q.stop⟩], some inLoc)
  (pair.1, pair.2.map fun ir =>
    ⟨ir.start + (r.dst_start - r.src_start), ir.stop + (r.dst_start - r.src_start)⟩)

/-- Rust struct `Location` (a category stage).  Only the rule collection is
kept; the `from`/`to` labels feed the parser, not the mapping functions. -/
structure Location where
  ranges : List LocationRange

/-- The `for range in &self.ranges { if let Some(mapped) ... }` loop of
`Location::map`: first matching rule wins, identity otherwise. -/
def mapFirst (rules : List LocationRange) (input : ℤ) : ℤ :=
  match rules with
  | [] => input
  | r :: rest =>
    match r.map input with
    | some v => v
    | none => mapFirst rest input

/-- The analogous loop of `Location::reverse_map`. -/
def reverseFirst (rules : List LocationRange) (input : ℤ) : ℤ :=
  match rules with
  | [] => input
  | r :: rest =>
    match r.reverse_map input with
    | some v => v
    | none => reverseFirst rest input

/-- `Location::map`. -/
def Location.map (l : Location) (input : ℤ) : ℤ :=
  mapFirst l.ranges input

/-- `Location::reverse_map`. -/
def Location.reverse_map (l : Location) (input : ℤ) : ℤ :=
  reverseFirst l.ranges input

/-- The `while let Some(range) = unseen.pop()` loop of `Location::map_ranges`
for one rule.  The caller passes the unseen list already reversed, so popping
from the end of the Rust `Vec` becomes consuming the head here.  Returns
`(still_here, dst_ranges produced by this rule)` in the order the Rust loop
builds them. -/
def popLoop (r : LocationRange) :
    List IRange → List IRange → List IRange → List IRange × List IRange
  | [], stillHere, dsts => (stillHere, dsts)
  | q :: rest, stillHere, dsts =>
    let res := r.split_range q
    popLoop r rest (stillHere ++ res.1)
      (match res.2 with
       | some d => dsts ++ [d]
       | none => dsts)

/-- `Location::map_ranges`: fold every rule over the still-unassigned
fragments, collecting mapped fragments, then append whatever is left. -/
def Location.map_ranges (l : Location) (ranges : List IRange) : List IRange :=
  let final := l.ranges.foldl
    (fun (acc : List IRange × List IRange) rule =>
      let step := popLoop rule acc.2.reverse [] []
      (acc.1 ++ step.2, step.1))
    ([], ranges)
  final.1 ++ final.2

/-- Rust struct `Almanach`. -/
structure Almanach where
  seeds : List ℤ
  locations : List Location

/-- `Almanach::get_dst`: fold `Location::map` across stages in order. -/
def Almanach.get_dst (a : Almanach) (src : ℤ) : ℤ :=
  a.locations.foldl (fun x l => l.map x) src

/-- `Almanach::get_src`: fold `Location::reverse_map` across stages in
reverse order (`.iter().rev().fold(..)`). -/
def Almanach.get_src (a : Almanach) (dst : ℤ) : ℤ :=
  a.locations.reverse.foldl (fun x l => l.reverse_map x) dst

/-- Rust `Iterator::min`: `none` on an empty sequence, otherwise the fold of
`min` over the elements. -/
def minList : List ℤ → Option ℤ
  | [] => none
  | x :: xs => some (xs.foldl min x)

/-- `Almanach::process_raw`: map every seed forward through all stages and
take the minimum; the Rust `.min().unwrap()` panics on an empty seed list,
embedded as the `none` case of the returned `Option`. -/
def Almanach.process_raw (a : Almanach) : Option ℤ :=
  minList (a.seeds.map a.get_dst)

/-- `Itertools::tuples` on the seed list: consecutive pairs, a trailing
unpaired element is dropped. -/
def toPairs : List ℤ → List (ℤ × ℤ)
  | a :: b :: rest => (a, b) :: toPairs rest
  | _ => []

/-- The `intervals` of `Almanach::process_range`: each `(a, b)` seed pair
becomes `a..a + b`. -/
def Almanach.intervals (a : Almanach) : List IRange :=
  (toPairs a.seeds).map fun p => ⟨p.1, p.1 + p.2⟩

/-- The membership test of `Almanach::process_range`:
`intervals.iter().any(|range| range.contains(&get_src(dst)))`. -/
def matchesB (a : Almanach) (d : ℤ) : Bool :=
  a.intervals.any fun r => decide (r.contains (a.get_src d))

/-- The destination found by the scan of `Almanach::process_range`: the Rust
iterator `(1..)` is chunked and each chunk searched with `find_first`, chunks
consumed in order, so the overall result is the least `d ≥ 1` whose reverse
image lies in a seed interval.  The hypothesis supplies termination of the
otherwise unbounded scan. -/
def foundDst (a : Almanach) (h : ∃ n : ℕ, matchesB a ((n : ℤ) + 1) = true) : ℤ :=
  (Nat.find h : ℤ) + 1

/-- `Almanach::process_range`: the found destination `d` is reported as
`get_dst(get_src(d))` (the source computes `src = get_src(d)` and returns
`get_dst(src)`). -/
def Almanach.process_range (a : Almanach)
    (h : ∃ n : ℕ, matchesB a ((n : ℤ) + 1) = true) : ℤ :=
  a.get_dst (a.get_src (foundDst a h))

/-- Pairwise disjointness of the source ranges of a rule list. -/
def pairwiseDisjointSrc (rules : List LocationRange) : Prop :=
  List.Pairwise (fun a b => rangesDisjoint a.src_range b.src_range) rules

/-- Pairwise disjointness of the destination ranges of a rule list. -/
def pairwiseDisjointDst (rules : List LocationRange) : Prop :=
  List.Pairwise (fun a b => rangesDisjoint a.dst_range b.dst_range) rules

/-- Pre-image under a rule of a mapped destination interval (shift back by
`dst_start - src_start`), used to state the `split_range` contract. -/
def preimageUnder (r : LocationRange) (m : IRange) : IRange :=
  ⟨m.start - r.dst_start + r.src_start, m.stop - r.dst_start + r.src_start⟩

/-- An integer is covered by the output of `split_range`: it lies in some
leftover interval or in the pre-image of the mapped interval. -/
def coveredBy (lo : List IRange) (m : Option IRange) (r : LocationRange) (x : ℤ) : Prop :=
  (∃ i ∈ lo, i.contains x) ∨ ∃ mr, m = some mr ∧ (preimageUnder r mr).contains x

/-- The exactness contract claimed for `split_range`: the union of the
leftover intervals and the pre-image of the mapped interval equals the query
exactly. -/
def splitExact (r : LocationRange) (q : IRange) : Prop :=
  ∀ x : ℤ, q.contains x ↔ coveredBy (r.split_range q).1 (r.split_range q).2 r x

/-- Almanach used to refute the claim that the inverse scan starts at
destination 0: seeds `[0, 2]` denote the single seed interval `[0, 2)`. -/
def C3ex : Almanach := ⟨[0, 2], []⟩

/-- Almanach used to witness the corrected inverse-scan statement: seeds
`[5, 1]` denote the seed interval `[5, 6)`. -/
def C3wit : Almanach := ⟨[5, 1], []⟩

/-- Two-stage almanach refuting the unconditional pipeline round trip: stage
one holds the single rule `(dst 5, src 10, len 1)`, stage two the single rule
`(dst 0, src 10, len 1)`; destination 0 is reachable from seed 0. -/
def C8ex : Almanach := ⟨[0], [⟨[⟨5, 10, 1⟩]⟩, ⟨[⟨0, 10, 1⟩]⟩]⟩

/-- Single-stage almanach (the published example stage) witnessing the
corrected pipeline round trip: its source ranges are disjoint and their union
`[50, 100)` equals the union of its destination ranges. -/
def C8wit : Almanach := ⟨[79], [⟨[⟨50, 98, 2⟩, ⟨52, 50, 48⟩]⟩]⟩

/-- Rule list (the published example stage) used in concrete witnesses. -/
def stageEx : List LocationRange := [⟨50, 98, 2⟩, ⟨52, 50, 48⟩]

/-- The same rule list in the opposite iteration order. -/
def stageExRev : List LocationRange := [⟨52, 50, 48⟩, ⟨50, 98, 2⟩]

/-- Almanach used to witness the behaviour of `process_raw` on a non-empty
seed list. -/
def C10wit : Almanach := ⟨[79, 14], []⟩

lemma src_range_contains_iff (r : LocationRange) (x : ℤ) :
    r.src_range.contains x ↔ r.src_start ≤ x ∧ x < r.src_start + r.length :=
  Iff.rfl

lemma dst_range_contains_iff (r : LocationRange) (x : ℤ) :
    r.dst_range.contains x ↔ r.dst_start ≤ x ∧ x < r.dst_start + r.length :=
  Iff.rfl

lemma rangesDisjoint_iff (a b : IRange) :
    rangesDisjoint a b ↔
      a.stop ≤ a.start ∨ b.stop ≤ b.start ∨ a.stop ≤ b.start ∨ b.stop ≤ a.start := by
  constructor
  · intro h
    by_contra hc
    push_neg at hc
    exact h (max a.start b.start)
      ⟨⟨le_max_left _ _, by omega⟩, ⟨le_max_right _ _, by omega⟩⟩
  · intro h x hx
    rcases hx with ⟨⟨h1, h2⟩, ⟨h3, h4⟩⟩
    omega

instance (a b : IRange) : Decidable (rangesDisjoint a b) :=
  decidable_of_iff _ (rangesDisjoint_iff a b).symm

lemma map_eq_some_iff (r : LocationRange) (x v : ℤ) :
    r.map x = some v ↔ r.src_range.contains x ∧ v = r.dst_start + (x - r.src_start) := by
  unfold LocationRange.map
  split_ifs with h <;> simp [h, eq_comm]

lemma map_eq_none_iff (r : LocationRange) (x : ℤ) :
    r.map x = none ↔ ¬ r.src_range.contains x := by
  unfold LocationRange.map
  split_ifs with h <;> simp [h]

lemma reverse_map_eq_some_iff (r : LocationRange) (y v : ℤ) :
    r.reverse_map y = some v ↔ r.dst_range.contains y ∧ v = r.src_start + (y - r.dst_start) := by
  unfold LocationRange.reverse_map
  split_ifs with h <;> simp [h, eq_comm]

lemma reverse_map_eq_none_iff (r : LocationRange) (y : ℤ) :
    r.reverse_map y = none ↔ ¬ r.dst_range.contains y := by
  unfold LocationRange.reverse_map
  split_ifs with h <;> simp [h]

/-- C5: for every rule and every integer, `map` returns
`x - src_start + dst_start` exactly when `x` lies in the source range and
`None` otherwise, and `reverse_map` returns `y - dst_start + src_start`
exactly when `y` lies in the destination range and `None` otherwise. -/
theorem C5_rule_maps (r : LocationRange) (x y : ℤ) :
    r.map x = (if r.src_range.contains x then some (x - r.src_start + r.dst_start) else none) ∧
    r.reverse_map y =
      (if r.dst_range.contains y then some (y - r.dst_start + r.src_start) else none) := by
  constructor
  · unfold LocationRange.map
    split_ifs with h
    · congr 1; ring
    · rfl
  · unfold LocationRange.reverse_map
    split_ifs with h
    · congr 1; ring
    · rfl

/-- C6: for every rule `r` and every `x` in `r`'s source range,
`reverse_map` undoes `map`: `(r.map x).bind r.reverse_map = some x`. -/
theorem C6_round_trip (r : LocationRange) (x : ℤ) (h : r.src_range.contains x) :
    (r.map x).bind r.reverse_map = some x := by
  have hx : r.src_start ≤ x ∧ x < r.src_start + r.length :=
    (src_range_contains_iff r x).mp h
  have h1 : r.map x = some (r.dst_start + (x - r.src_start)) := by
    unfold LocationRange.map
    rw [if_pos h]
  rw [h1, Option.some_bind]
  have h2 : r.dst_range.contains (r.dst_start + (x - r.src_start)) :=
    (dst_range_contains_iff r _).mpr (by omega)
  unfold LocationRange.reverse_map
  rw [if_pos h2]
  congr 1
  ring

/-- C6 witness: the rule `(dst 50, src 98, len 2)` maps `98` to `50` and back. -/
theorem C6_round_trip_witness :
    ((LocationRange.mk 50 98 2).map 98).bind (LocationRange.mk 50 98 2).reverse_map =
      some 98 :=
  C6_round_trip (LocationRange.mk 50 98 2) 98 (by decide)

/-- C4 counterexample: `LocationRange::new` performs no validation, so a rule
with `length = 0` is constructed, not rejected. -/
theorem C4_counterexample : (LocationRange.new 50 98 0).length = 0 := rfl

/-- C4 (amended): constructing a rule with `length = 0` is not rejected —
`LocationRange::new` admits it unchanged — but such a rule is inert: its
source and destination ranges are empty, so `map` and `reverse_map` return
`None` on every input. -/
theorem C4_zero_length_admitted (d s x : ℤ) :
    (LocationRange.new d s 0).length = 0 ∧
    (LocationRange.new d s 0).map x = none ∧
    (LocationRange.new d s 0).reverse_map x = none := by
  refine ⟨rfl, ?_, ?_⟩
  · rw [map_eq_none_iff, src_range_contains_iff]
    simp only [LocationRange.new]
    omega
  · rw [reverse_map_eq_none_iff, dst_range_contains_iff]
    simp only [LocationRange.new]
    omega

/-- C1: the exactness contract of `split_range` fails on the code.  The first
branch of the source tests `in_loc_range.start < in_loc_range.end` — i.e. a
NON-empty intersection — and then reports "no overlap", so a query disjoint
from the rule falls through to the offset branches.  For the rule
`(dst 52, src 50, len 48)` and the disjoint query `[0, 5)` the code returns
leftover `[5, 5)` (empty) and mapped `[52, 7)` (reversed, empty), which cover
no integer of the query at all: the union of the leftover and the pre-image of
the mapped range misses the whole query, violating the claimed exactness and
length conservation. -/
theorem C1_split_range_bug :
    (LocationRange.mk 52 50 48).split_range ⟨0, 5⟩ = ([⟨5, 5⟩], some ⟨52, 7⟩) ∧
    ¬ splitExact (LocationRange.mk 52 50 48) ⟨0, 5⟩ := by
  have he : (LocationRange.mk 52 50 48).split_range ⟨0, 5⟩ = ([⟨5, 5⟩], some ⟨52, 7⟩) := by
    decide
  refine ⟨he, ?_⟩
  intro hs
  have h0 := (hs 0).mp (by decide)
  rw [he] at h0
  rcases h0 with ⟨i, hi, hci⟩ | ⟨mr, hmr, hc⟩
  · simp only [List.mem_singleton] at hi
    subst hi
    exact absurd hci (by decide)
  · have hmr2 : mr = ⟨52, 7⟩ := (Option.some.inj hmr).symm
    subst hmr2
    exact absurd hc (by decide)

/-- C2: length conservation of `Location::map_ranges` fails on the code
(consequence of the inverted intersection test in `split_range`).  For the
single-rule stage `(dst 52, src 50, len 48)` and the pairwise-disjoint input
range set `[[0, 5)]` of total length 5, `map_ranges` returns
`[[52, 7), [5, 5)]`, two empty ranges of total length 0. -/
theorem C2_map_ranges_bug :
    List.Pairwise rangesDisjoint [(⟨0, 5⟩ : IRange)] ∧
    (Location.mk [LocationRange.mk 52 50 48]).map_ranges [⟨0, 5⟩] = [⟨52, 7⟩, ⟨5, 5⟩] ∧
    totalLen [(⟨0, 5⟩ : IRange)] = 5 ∧
    totalLen ((Location.mk [LocationRange.mk 52 50 48]).map_ranges [⟨0, 5⟩]) = 0 := by
  refine ⟨?_, by decide, by decide, by decide⟩
  simp

lemma mapFirst_eq_self (rules : List LocationRange) (x : ℤ)
    (h : ∀ r ∈ rules, ¬ r.src_range.contains x) : mapFirst rules x = x := by
  induction rules with
  | nil => rfl
  | cons r rest ih =>
    unfold mapFirst
    rw [(map_eq_none_iff r x).mpr (h r (List.mem_cons_self r rest))]
    exact ih fun s hs => h s (List.mem_cons_of_mem r hs)

lemma reverseFirst_eq_self (rules : List LocationRange) (y : ℤ)
    (h : ∀ r ∈ rules, ¬ r.dst_range.contains y) : reverseFirst rules y = y := by
  induction rules with
  | nil => rfl
  | cons r rest ih =>
    unfold reverseFirst
    rw [(reverse_map_eq_none_iff r y).mpr (h r (List.mem_cons_self r rest))]
    exact ih fun s hs => h s (List.mem_cons_of_mem r hs)

lemma mapFirst_eq_of_mem (rules : List LocationRange) (x : ℤ) (R : LocationRange)
    (hd : pairwiseDisjointSrc rules) (hm : R ∈ rules) (hc : R.src_range.contains x) :
    mapFirst rules x = R.dst_start + (x - R.src_start) := by
  induction rules with
  | nil => cases hm
  | cons r rest ih =>
    have hpair := List.pairwise_cons.mp hd
    rcases List.mem_cons.mp hm with rfl | hmem
    · unfold mapFirst
      rw [(map_eq_some_iff R x _).mpr ⟨hc, rfl⟩]
    · have hnone : r.map x = none :=
        (map_eq_none_iff r x).mpr fun hcr => hpair.1 R hmem x ⟨hcr, hc⟩
      unfold mapFirst
      rw [hnone]
      exact ih hpair.2 hmem

lemma reverseFirst_eq_of_mem (rules : List LocationRange) (y : ℤ) (R : LocationRange)
    (hd : pairwiseDisjointDst rules) (hm : R ∈ rules) (hc : R.dst_range.contains y) :
    reverseFirst rules y = R.src_start + (y - R.dst_start) := by
  induction rules with
  | nil => cases hm
  | cons r rest ih =>
    have hpair := List.pairwise_cons.mp hd
    rcases List.mem_cons.mp hm with rfl | hmem
    · unfold reverseFirst
      rw [(reverse_map_eq_some_iff R y _).mpr ⟨hc, rfl⟩]
    · have hnone : r.reverse_map y = none :=
        (reverse_map_eq_none_iff r y).mpr fun hcr => hpair.1 R hmem y ⟨hcr, hc⟩
      unfold reverseFirst
      rw [hnone]
      exact ih hpair.2 hmem

/-- C7: a stage is a total function with identity fallback — if no rule's
source range contains `x` then `Location::map` returns `x`, and if no rule's
destination range contains `y` then `Location::reverse_map` returns `y`
(point lookups never fail; both functions are total by construction). -/
theorem C7_identity (l : Location) (x y : ℤ)
    (hx : ∀ r ∈ l.ranges, ¬ r.src_range.contains x)
    (hy : ∀ r ∈ l.ranges, ¬ r.dst_range.contains y) :
    l.map x = x ∧ l.reverse_map y = y :=
  ⟨mapFirst_eq_self l.ranges x hx, reverseFirst_eq_self l.ranges y hy⟩

/-- C7 witness: in the published example stage, `100` and `200` are covered by
no rule and pass through unchanged in both directions. -/
theorem C7_identity_witness :
    (Location.mk stageEx).map 100 = 100 ∧ (Location.mk stageEx).reverse_map 200 = 200 :=
  C7_identity (Location.mk stageEx) 100 200 (by decide) (by decide)

lemma exists_match_iff_of_perm (ra rb : List LocationRange) (hp : ra.Perm rb) (x : ℤ) :
    (∃ R ∈ ra, R.src_range.contains x) ↔ ∃ R ∈ rb, R.src_range.contains x := by
  constructor
  · rintro ⟨R, hm, hc⟩
    exact ⟨R, hp.mem_iff.mp hm, hc⟩
  · rintro ⟨R, hm, hc⟩
    exact ⟨R, hp.mem_iff.mpr hm, hc⟩

lemma pairwiseDisjointSrc_of_perm (ra rb : List LocationRange) (hp : ra.Perm rb)
    (hd : pairwiseDisjointSrc ra) : pairwiseDisjointSrc rb := by
  refine (List.Perm.pairwise_iff ?_ hp).mp hd
  intro a b hab x hx
  exact hab x ⟨hx.2, hx.1⟩

lemma pairwiseDisjointDst_of_perm (ra rb : List LocationRange) (hp : ra.Perm rb)
    (hd : pairwiseDisjointDst ra) : pairwiseDisjointDst rb := by
  refine (List.Perm.pairwise_iff ?_ hp).mp hd
  intro a b hab x hx
  exact hab x ⟨hx.2, hx.1⟩

/-- C9: under pairwise-disjoint source ranges, `Location::map` does not depend
on the iteration order of the rule collection, and under pairwise-disjoint
destination ranges neither does `Location::reverse_map`: any two stages whose
rule lists are permutations of one another agree pointwise. -/
theorem C9_deterministic (ra rb : List LocationRange) (x y : ℤ) (hp : ra.Perm rb) :
    (pairwiseDisjointSrc ra → (Location.mk ra).map x = (Location.mk rb).map x) ∧
    (pairwiseDisjointDst ra → (Location.mk ra).reverse_map y = (Location.mk rb).reverse_map y) := by
  constructor
  · intro hd
    show mapFirst ra x = mapFirst rb x
    by_cases hex : ∃ R ∈ ra, R.src_range.contains x
    · obtain ⟨R, hm, hc⟩ := hex
      rw [mapFirst_eq_of_mem ra x R hd hm hc,
        mapFirst_eq_of_mem rb x R (pairwiseDisjointSrc_of_perm ra rb hp hd)
          (hp.mem_iff.mp hm) hc]
    · push_neg at hex
      rw [mapFirst_eq_self ra x hex,
        mapFirst_eq_self rb x fun R hm => hex R (hp.mem_iff.mpr hm)]
  · intro hd
    show reverseFirst ra y = reverseFirst rb y
    by_cases hex : ∃ R ∈ ra, R.dst_range.contains y
    · obtain ⟨R, hm, hc⟩ := hex
      rw [reverseFirst_eq_of_mem ra y R hd hm hc,
        reverseFirst_eq_of_mem rb y R (pairwiseDisjointDst_of_perm ra rb hp hd)
          (hp.mem_iff.mp hm) hc]
    · push_neg at hex
      rw [reverseFirst_eq_self ra y hex,
        reverseFirst_eq_self rb y fun R hm => hex R (hp.mem_iff.mpr hm)]

/-- C9 witness: the two iteration orders of the published example stage agree
at `79` forward and at `81` backward. -/
theorem C9_deterministic_witness :
    (Location.mk stageEx).map 79 = (Location.mk stageExRev).map 79 ∧
    (Location.mk stageEx).reverse_map 81 = (Location.mk stageExRev).reverse_map 81 := by
  have hp : stageEx.Perm stageExRev := List.Perm.swap _ _ _
  have hds : pairwiseDisjointSrc stageEx := by
    refine List.Pairwise.cons ?_ (List.pairwise_singleton _ _)
    intro b hb
    simp only [stageEx, List.mem_singleton] at hb
    subst hb
    decide
  have hdd : pairwiseDisjointDst stageEx := by
    refine List.Pairwise.cons ?_ (List.pairwise_singleton _ _)
    intro b hb
    simp only [stageEx, List.mem_singleton] at hb
    subst hb
    decide
  exact ⟨(C9_deterministic stageEx stageExRev 79 81 hp).1 hds,
    (C9_deterministic stageEx stageExRev 79 81 hp).2 hdd⟩

lemma reverseFirst_cases (rules : List LocationRange) (d : ℤ) :
    ((∀ r ∈ rules, ¬ r.dst_range.contains d) ∧ reverseFirst rules d = d) ∨
    ∃ R ∈ rules, R.dst_range.contains d ∧
      reverseFirst rules d = R.src_start + (d - R.dst_start) := by
  induction rules with
  | nil => exact Or.inl ⟨by simp, rfl⟩
  | cons r rest ih =>
    by_cases hc : r.dst_range.contains d
    · refine Or.inr ⟨r, List.mem_cons_self r rest, hc, ?_⟩
      unfold reverseFirst
      rw [(reverse_map_eq_some_iff r d _).mpr ⟨hc, rfl⟩]
    · have hnone : r.reverse_map d = none := (reverse_map_eq_none_iff r d).mpr hc
      have hstep : reverseFirst (r :: rest) d = reverseFirst rest d := by
        show (match r.reverse_map d with
          | some v => v
          | none => reverseFirst rest d) = reverseFirst rest d
        rw [hnone]
      rcases ih with ⟨hall, heq⟩ | ⟨R, hm, hcd, heq⟩
      · refine Or.inl ⟨?_, by rw [hstep, heq]⟩
        intro s hs
        rcases List.mem_cons.mp hs with rfl | hs
        · exact hc
        · exact hall s hs
      · exact Or.inr ⟨R, List.mem_cons_of_mem r hm, hcd, by rw [hstep, heq]⟩

lemma stage_roundtrip (l : Location)
    (hd : pairwiseDisjointSrc l.ranges)
    (hcov : ∀ x : ℤ, (∃ r ∈ l.ranges, r.src_range.contains x) →
      ∃ r ∈ l.ranges, r.dst_range.contains x)
    (d : ℤ) : l.map (l.reverse_map d) = d := by
  show mapFirst l.ranges (reverseFirst l.ranges d) = d
  rcases reverseFirst_cases l.ranges d with ⟨hnone, heq⟩ | ⟨R, hmem, hc, heq⟩
  · rw [heq]
    by_cases hsrc : ∃ r ∈ l.ranges, r.src_range.contains d
    · obtain ⟨r, hr, hcd⟩ := hcov d hsrc
      exact absurd hcd (hnone r hr)
    · push_neg at hsrc
      exact mapFirst_eq_self l.ranges d hsrc
  · rw [heq]
    have hcd : R.dst_start ≤ d ∧ d < R.dst_start + R.length :=
      (dst_range_contains_iff R d).mp hc
    have hcs : R.src_range.contains (R.src_start + (d - R.dst_start)) :=
      (src_range_contains_iff R _).mpr (by omega)
    rw [mapFirst_eq_of_mem l.ranges _ R hd hmem hcs]
    ring

lemma pipeline_roundtrip (ls : List Location)
    (h : ∀ l ∈ ls, pairwiseDisjointSrc l.ranges ∧
      ∀ x : ℤ, (∃ r ∈ l.ranges, r.src_range.contains x) →
        ∃ r ∈ l.ranges, r.dst_range.contains x)
    (d : ℤ) :
    ls.foldl (fun x l => l.map x) (ls.reverse.foldl (fun x l => l.reverse_map x) d) = d := by
  induction ls generalizing d with
  | nil => rfl
  | cons l rest ih =>
    have hl := h l (List.mem_cons_self l rest)
    simp only [List.reverse_cons, List.foldl_append, List.foldl_cons, List.foldl_nil]
    rw [stage_roundtrip l hl.1 hl.2]
    exact ih (fun s hs => h s (List.mem_cons_of_mem l hs)) d

/-- C8 counterexample: the unconditional pipeline round trip fails on the
code.  In the two-stage almanach `C8ex` (stages `[(dst 5, src 10, len 1)]` and
`[(dst 0, src 10, len 1)]`, each trivially disjoint), destination `0` is
reachable from seed `0`, yet
`get_dst(get_src(0)) = 5 ≠ 0`: stage two pulls `0` back to `10`, which stage
one then diverts forward to `5`. -/
theorem C8_counterexample :
    (0 : ℤ) ∈ C8ex.seeds ∧ C8ex.get_dst 0 = 0 ∧
    C8ex.get_dst (C8ex.get_src 0) = 5 ∧ C8ex.get_dst (C8ex.get_src 0) ≠ 0 := by
  refine ⟨?_, by decide, by decide, by decide⟩
  simp [C8ex]

/-- C8 (amended): if every stage's rules have pairwise-disjoint source ranges
and every integer covered by some rule's source range is also covered by some
rule's destination range of the same stage, then
`get_dst(get_src(d)) = d` for every destination `d`. -/
theorem C8_pipeline_roundtrip (a : Almanach)
    (h : ∀ l ∈ a.locations, pairwiseDisjointSrc l.ranges ∧
      ∀ x : ℤ, (∃ r ∈ l.ranges, r.src_range.contains x) →
        ∃ r ∈ l.ranges, r.dst_range.contains x)
    (d : ℤ) : a.get_dst (a.get_src d) = d :=
  pipeline_roundtrip a.locations h d

/-- C8 witness: the published example stage has disjoint source ranges whose
union `[50, 100)` equals the union of its destination ranges, so the round
trip holds there; instantiated at destination `79`. -/
theorem C8_pipeline_roundtrip_witness :
    C8wit.get_dst (C8wit.get_src 79) = 79 := by
  refine C8_pipeline_roundtrip C8wit ?_ 79
  intro l hl
  simp only [C8wit, List.mem_singleton] at hl
  subst hl
  constructor
  · refine List.Pairwise.cons ?_ (List.pairwise_singleton _ _)
    intro b hb
    simp only [List.mem_singleton] at hb
    subst hb
    decide
  · intro x hx
    have hx2 : (98 ≤ x ∧ x < 100) ∨ (50 ≤ x ∧ x < 98) := by
      rcases hx with ⟨r, hr, hcr⟩
      rcases List.mem_cons.mp hr with rfl | hr
      · exact Or.inl ((src_range_contains_iff _ x).mp hcr)
      · simp only [List.mem_singleton] at hr
        subst hr
        exact Or.inr ((src_range_contains_iff _ x).mp hcr)
    by_cases hlt : x < 52
    · refine ⟨⟨50, 98, 2⟩, List.mem_cons_self _ _, ?_⟩
      simp only [dst_range_contains_iff]
      omega
    · refine ⟨⟨52, 50, 48⟩, List.mem_cons_of_mem _ (List.mem_cons_self _ _), ?_⟩
      simp only [dst_range_contains_iff]
      omega

/-- The scan of `C3ex` terminates: destination 1 already matches. -/
theorem C3exH : ∃ n : ℕ, matchesB C3ex ((n : ℤ) + 1) = true :=
  ⟨0, by decide⟩

/-- C3 counterexample: the scan of `process_range` starts at destination `1`,
not `0`.  In `C3ex` (seed interval `[0, 2)`, no stages) destination `0`
matches — `get_src(0) = 0` lies in the seed-range set — yet the scan's first
match is `1` and the solver reports `1`, not the minimum matching
destination `0`. -/
theorem C3_counterexample :
    matchesB C3ex 0 = true ∧ foundDst C3ex C3exH = 1 ∧
    C3ex.process_range C3exH = 1 := by
  have hf : foundDst C3ex C3exH = 1 := by
    unfold foundDst
    rw [(Nat.find_eq_zero C3exH).mpr (by decide)]
    simp
  refine ⟨by decide, hf, ?_⟩
  unfold Almanach.process_range
  rw [hf]
  decide

/-- C3 (amended): the inverse-scan solver examines candidate destinations
`d = 1, 2, 3, …` in strictly increasing order; the found destination matches
(its reverse image lies in the seed-range set), it is the smallest matching
`d ≥ 1`, and the solver reports `get_dst(get_src(d))` for that `d`. -/
theorem C3_scan (a : Almanach) (h : ∃ n : ℕ, matchesB a ((n : ℤ) + 1) = true) :
    1 ≤ foundDst a h ∧ matchesB a (foundDst a h) = true ∧
    (∀ d : ℤ, 1 ≤ d → matchesB a d = true → foundDst a h ≤ d) ∧
    a.process_range h = a.get_dst (a.get_src (foundDst a h)) := by
  refine ⟨?_, ?_, ?_, rfl⟩
  · unfold foundDst
    have hn : (0 : ℤ) ≤ (Nat.find h : ℤ) := Int.natCast_nonneg _
    omega
  · exact Nat.find_spec h
  · intro d hd hm
    unfold foundDst
    have hp : matchesB a (((d - 1).toNat : ℤ) + 1) = true := by
      have he : ((d - 1).toNat : ℤ) + 1 = d := by omega
      rw [he]
      exact hm
    have hle : Nat.find h ≤ (d - 1).toNat := Nat.find_min' h hp
    have hcast : ((Nat.find h : ℤ)) ≤ ((d - 1).toNat : ℤ) := Int.ofNat_le.mpr hle
    omega

/-- The scan of `C3wit` terminates: destination 5 matches. -/
theorem C3witH : ∃ n : ℕ, matchesB C3wit ((n : ℤ) + 1) = true :=
  ⟨4, by decide⟩

/-- C3 witness: the amended scan statement instantiated on the almanach with
seed interval `[5, 6)` and no stages, with the minimality conjunct applied at
the matching destination `5`. -/
theorem C3_scan_witness :
    1 ≤ foundDst C3wit C3witH ∧ matchesB C3wit (foundDst C3wit C3witH) = true ∧
    foundDst C3wit C3witH ≤ 5 ∧
    C3wit.process_range C3witH = C3wit.get_dst (C3wit.get_src (foundDst C3wit C3witH)) :=
  ⟨(C3_scan C3wit C3witH).1, (C3_scan C3wit C3witH).2.1,
    (C3_scan C3wit C3witH).2.2.1 5 (by norm_num) (by decide),
    (C3_scan C3wit C3witH).2.2.2⟩

lemma foldl_min_le_init (xs : List ℤ) (a : ℤ) : xs.foldl min a ≤ a := by
  induction xs generalizing a with
  | nil => simp
  | cons x xs ih =>
    simp only [List.foldl_cons]
    exact le_trans (ih (min a x)) (min_le_left a x)

lemma foldl_min_le_mem (xs : List ℤ) (a x : ℤ) (hx : x ∈ xs) : xs.foldl min a ≤ x := by
  induction xs generalizing a with
  | nil => cases hx
  | cons y ys ih =>
    simp only [List.foldl_cons]
    rcases List.mem_cons.mp hx with rfl | h
    · exact le_trans (foldl_min_le_init ys (min a x)) (min_le_right a x)
    · exact ih (min a y) h

lemma foldl_min_mem (xs : List ℤ) (a : ℤ) : xs.foldl min a = a ∨ xs.foldl min a ∈ xs := by
  induction xs generalizing a with
  | nil => exact Or.inl rfl
  | cons x xs ih =>
    simp only [List.foldl_cons]
    rcases ih (min a x) with h | h
    · rcases le_total a x with hax | hxa
      · rw [h, min_eq_left hax]
        exact Or.inl rfl
      · rw [h, min_eq_right hxa]
        exact Or.inr (List.mem_cons_self x xs)
    · exact Or.inr (List.mem_cons_of_mem x h)

/-- C10: `process_raw` fails (the `.min().unwrap()` has nothing to unwrap)
exactly when the seed list is empty, and on a non-empty seed list it returns
the minimum, over all seeds, of the forward pipeline image of the seed; the
returned value is itself the image of one of the seeds. -/
theorem C10_process_raw (a : Almanach) :
    (a.process_raw = none ↔ a.seeds = []) ∧
    (a.seeds ≠ [] →
      ∃ m, a.process_raw = some m ∧ m ∈ a.seeds.map a.get_dst ∧
        ∀ s ∈ a.seeds, m ≤ a.get_dst s) := by
  constructor
  · unfold Almanach.process_raw minList
    cases hs : a.seeds with
    | nil => simp
    | cons s rest => simp
  · intro hne
    cases hs : a.seeds with
    | nil => exact absurd hs hne
    | cons s rest =>
      refine ⟨((rest.map a.get_dst).foldl min (a.get_dst s)), ?_, ?_, ?_⟩
      · unfold Almanach.process_raw
        rw [hs]
        rfl
      · rcases foldl_min_mem (rest.map a.get_dst) (a.get_dst s) with h | h
        · rw [h, List.map_cons]
          exact List.mem_cons_self _ _
        · rw [List.map_cons]
          exact List.mem_cons_of_mem _ h
      · intro t ht
        rcases List.mem_cons.mp ht with rfl | ht
        · exact foldl_min_le_init _ _
        · exact foldl_min_le_mem _ _ _ (List.mem_map_of_mem a.get_dst ht)

/-- C10 witness: on the almanach with seeds `[79, 14]` and no stages,
`process_raw` returns `some 14`, the image of seed `14`, and a lower bound of
both seed images. -/
theorem C10_process_raw_witness :
    ∃ m, C10wit.process_raw = some m ∧ m ∈ C10wit.seeds.map C10wit.get_dst ∧
      ∀ s ∈ C10wit.seeds, m ≤ C10wit.get_dst s :=
  (C10_process_raw C10wit).2 (by decide)
